import Mathlib

/-!
A shallow embedding of the Mach-O binary–patching backend of the memprof
instrumentation engine (src/ext/mach.c), together with proofs about it.

Process memory is modelled as a total byte map `Mem : Nat → Nat`; pointers
are 64-bit machine words, so every pointer-forming addition is taken
`% 2 ^ 64`.  The dyld stub table machinery, the symbol-table lookups, the
image/section scanning loop and the executable-page allocator are each
translated directly from the C source.  External collaborators that are not
part of this repository's source (the instruction encoder
`arch_insert_st1_tramp`, the OS `mmap` primitive, and libc `qsort`) are
modelled as explicit parameters constrained only by their documented
contracts.
-/

/-- Byte-addressed process memory: a total map from addresses to byte
values.  Reads reduce the stored value `% 256` so that arbitrary maps still
read back as bytes. -/
abbrev Mem : Type := Nat → Nat

/-- Read a 4-byte little-endian unsigned integer (the `uint32_t offset`
field of a stub entry). -/
def readU32 (m : Mem) (a : Nat) : Nat :=
  m a % 256 + m (a + 1) % 256 * 256 + m (a + 2) % 256 * 256 ^ 2 +
    m (a + 3) % 256 * 256 ^ 3

/-- Read an 8-byte little-endian pointer (a `void*` on x86_64). -/
def readPtr (m : Mem) (a : Nat) : Nat :=
  m a % 256 + m (a + 1) % 256 * 256 + m (a + 2) % 256 * 256 ^ 2 +
    m (a + 3) % 256 * 256 ^ 3 + m (a + 4) % 256 * 256 ^ 4 +
    m (a + 5) % 256 * 256 ^ 5 + m (a + 6) % 256 * 256 ^ 6 +
    m (a + 7) % 256 * 256 ^ 7

/-- Byte `d` of the little-endian encoding of the machine word `v`. -/
def byteAt (v d : Nat) : Nat := v / 256 ^ d % 256

/-- Store an 8-byte little-endian pointer `v` at address `a`. -/
def writePtr (m : Mem) (a v : Nat) : Mem :=
  fun x => if a ≤ x ∧ x < a + 8 then byteAt v (x - a) else m x

/-- `memset(a, v, n)`: fill `n` bytes starting at `a` with byte `v`. -/
def memsetBytes (m : Mem) (a v n : Nat) : Mem :=
  fun x => if a ≤ x ∧ x < a + n then v else m x

/-- The address interval `[a, a + w)`. -/
abbrev inBlock (a w x : Nat) : Prop := a ≤ x ∧ x < a + w

/-! ## dyld stub entries (struct dyld_stub_entry, get/set_dyld_stub_target)

A stub entry is a packed 6-byte record: 2 opcode bytes (`jmp[2]`, expected
`0xff 0x25`) followed by a 4-byte offset.  The jump target is the pointer
stored at `(entry + 1) + offset`, i.e. 6 bytes past the entry start plus
the offset. -/

/-- The entry at `e` has the expected `0xff 0x25` indirect-jmp opcode. -/
def wfStub (m : Mem) (e : Nat) : Prop :=
  m e % 256 = 0xff ∧ m (e + 1) % 256 = 0x25

instance (m : Mem) (e : Nat) : Decidable (wfStub m e) :=
  inferInstanceAs (Decidable (m e % 256 = 0xff ∧ m (e + 1) % 256 = 0x25))

/-- Address of the pointer slot a stub entry indirects through:
`(void*)(entry + 1) + entry->offset`. -/
def slotAddr (m : Mem) (e : Nat) : Nat := e + 6 + readU32 m (e + 2)

/-- `get_dyld_stub_target`: if the opcode bytes match, dereference the
pointer slot; otherwise return NULL (0). -/
def get_dyld_stub_target (m : Mem) (e : Nat) : Nat :=
  if m e % 256 = 0xff ∧ m (e + 1) % 256 = 0x25 then readPtr m (slotAddr m e)
  else 0

/-- `set_dyld_stub_target`: overwrite the entry's pointer slot with `v`.
(The C version writes through the offset unconditionally; it is only ever
called after `get_dyld_stub_target` matched.) -/
def set_dyld_stub_target (m : Mem) (e : Nat) (v : Nat) : Mem :=
  writePtr m (slotAddr m e) v

/-- The loop body of `update_dyld_stub_table`.  The C loop steps a
`struct dyld_stub_entry*` by 6 bytes while it is below `table + len`; here
the fuel `n` is the number of iterations of that loop, `ceil(len / 6)`
(see `stubN`), and `e` is the current entry address.  The returned Bool is
true iff the C function would return 0 (at least one slot rewritten). -/
def update_stub_go (trampee v : Nat) : Mem → Nat → Nat → Mem × Bool
  | m, _, 0 => (m, false)
  | m, e, n + 1 =>
    if get_dyld_stub_target m e = trampee then
      let r := update_stub_go trampee v (set_dyld_stub_target m e v) (e + 6) n
      (r.1, true)
    else
      let r := update_stub_go trampee v m (e + 6) n
      (r.1, r.2)

/-- Number of iterations of the stub-table loop over a table of `len`
bytes: entry addresses `table + 6k` with `table + 6k < table + len`. -/
def stubN (len : Nat) : Nat := (len + 5) / 6

/-- `update_dyld_stub_table(table, len, trampee_addr, tramp)`:
scan all entries, rewriting every slot whose current target equals
`trampee`; Bool result is true iff the C function returns 0. -/
def update_dyld_stub_table (m : Mem) (table len trampee v : Nat) : Mem × Bool :=
  update_stub_go trampee v m table (stubN len)

/-- Pointer slot of the `j`-th entry of the table, decoded from `m`. -/
def slotOf (m : Mem) (table j : Nat) : Nat := slotAddr m (table + 6 * j)

/-- The `j`-th entry of the table has the expected opcode bytes in `m`. -/
def wfAt (m : Mem) (table j : Nat) : Prop := wfStub m (table + 6 * j)

instance (m : Mem) (table j : Nat) : Decidable (wfAt m table j) :=
  inferInstanceAs (Decidable (wfStub m (table + 6 * j)))

/-- The `j`-th entry is well formed and its decoded jump target is `t`. -/
def matchAt (m : Mem) (table j t : Nat) : Prop :=
  wfAt m table j ∧ readPtr m (slotOf m table j) = t

instance (m : Mem) (table j t : Nat) : Decidable (matchAt m table j t) :=
  inferInstanceAs (Decidable (wfAt m table j ∧ readPtr m (slotOf m table j) = t))

/-! ## Image / section scanning and the stub-table allow-list -/

/-- `strcmp(s + len(s) - len(suf), suf) == 0` guarded by a length check:
the last `len(suf)` characters of `s` are exactly `suf`. -/
def endsWithStr (s suf : String) : Bool :=
  if suf.data.length ≤ s.data.length then
    decide (s.data.drop (s.data.length - suf.data.length) = suf.data)
  else false

/-- `strncmp(s, t, n) == 0`: the first `n` characters agree (model strings
carry no NUL byte, so a shorter string compares unequal just as `strncmp`
stops at the terminator). -/
def strncmpEq (s t : String) (n : Nat) : Bool :=
  decide (s.data.take n = t.data.take n)

/-- A `section_64` as the scanner sees it: its name, its in-process data
address (`getsectdatafromheader_64(...) + slide`), and its size. -/
structure SectionM where
  sectname : String
  secAddr : Nat
  size : Nat
deriving DecidableEq

/-- A load command of an in-process image: either an `LC_SEGMENT_64`
carrying its sections, or any other command (skipped by the scanner). -/
inductive ImgLC where
  | segment64 (sections : List SectionM)
  | otherLC
deriving DecidableEq

/-- One loaded image as enumerated by dyld: whether its header is
`&_mh_bundle_header` (the instrumentation module's own image), the file
name `dladdr` reports for addresses inside it (`none` if `dladdr` fails),
and its load commands. -/
structure Image where
  isSelf : Bool
  fname : Option String
  cmds : List ImgLC
deriving DecidableEq

/-- `should_update_stub_table`: the file containing the section must end
in "bundle" (a native extension) or in "libruby.dylib" (the interpreter's
shared library).  `dladdr` failure means no update. -/
def should_update_stub_table (img : Image) : Bool :=
  match img.fname with
  | some s => endsWithStr s "bundle" || endsWithStr s "libruby.dylib"
  | none => false

/-- The allow-list as the specification words it: the interpreter's shared
library `libruby.dylib` or a loadable native-extension `.bundle` object.
This is a spec-side definition used only to compare the code's filter
against the spec's description of it. -/
def allowListSpec (fname : Option String) : Bool :=
  match fname with
  | some s => endsWithStr s ".bundle" || endsWithStr s "libruby.dylib"
  | none => false

/-- The external instruction encoder `arch_insert_st1_tramp`
(not part of this repository's scanned source).  Modelled from the spec:
given memory, a candidate code offset, the resolved target address and the
trampoline address, it may install a tramp (returning updated memory and
true, i.e. C result 0) or refuse (false, memory unchanged or not — the
model leaves it free). -/
abbrev ArchFn : Type := Mem → Nat → Nat → Nat → Mem × Bool

/-- The `__text` scan of `update_mach_section`: ask the encoder at every
byte offset of the section; fuel `n` counts the remaining bytes. -/
def update_text_section (arch : ArchFn) (m : Mem) (addr trampee v : Nat) :
    Nat → Mem × Bool
  | 0 => (m, false)
  | n + 1 =>
    let r1 := arch m addr trampee v
    let r2 := update_text_section arch r1.1 (addr + 1) trampee v n
    (r2.1, r1.2 || r2.2)

/-- `update_mach_section`: dispatch a section by name — sections whose name
begins with "__symbol_stub" go to the stub-table patcher (guarded by the
file-name allow-list), the "__text" section goes to the inline patcher,
everything else is ignored. -/
def update_mach_section (arch : ArchFn) (m : Mem) (img : Image)
    (sect : SectionM) (trampee v : Nat) : Mem × Bool :=
  if strncmpEq sect.sectname "__symbol_stub" 13 then
    if should_update_stub_table img then
      update_dyld_stub_table m sect.secAddr sect.size trampee v
    else (m, false)
  else if sect.sectname = "__text" then
    update_text_section arch m sect.secAddr trampee v sect.size
  else (m, false)

/-- The section loop of `update_bin_for_mach_header`. -/
def update_sections (arch : ArchFn) (m : Mem) (img : Image) (trampee v : Nat) :
    List SectionM → Mem × Bool
  | [] => (m, false)
  | s :: rest =>
    let r1 := update_mach_section arch m img s trampee v
    let r2 := update_sections arch r1.1 img trampee v rest
    (r2.1, r1.2 || r2.2)

/-- The load-command loop of `update_bin_for_mach_header`: only
`LC_SEGMENT_64` commands contribute sections. -/
def update_bin_cmds (arch : ArchFn) (m : Mem) (img : Image) (trampee v : Nat) :
    List ImgLC → Mem × Bool
  | [] => (m, false)
  | ImgLC.segment64 sects :: rest =>
    let r1 := update_sections arch m img trampee v sects
    let r2 := update_bin_cmds arch r1.1 img trampee v rest
    (r2.1, r1.2 || r2.2)
  | ImgLC.otherLC :: rest => update_bin_cmds arch m img trampee v rest

/-- `update_bin_for_mach_header` for one image. -/
def update_bin_for_mach_header (arch : ArchFn) (m : Mem) (img : Image)
    (trampee v : Nat) : Mem × Bool :=
  update_bin_cmds arch m img trampee v img.cmds

/-- The image loop of `bin_update_image`: every dyld image is visited, but
the one whose header is `&_mh_bundle_header` (the instrumentation module
itself) is skipped. -/
def update_images (arch : ArchFn) (m : Mem) (trampeeAddr v : Nat) :
    List Image → Mem × Bool
  | [] => (m, false)
  | img :: rest =>
    if img.isSelf then update_images arch m trampeeAddr v rest
    else
      let r1 := update_bin_for_mach_header arch m img trampeeAddr v
      let r2 := update_images arch r1.1 trampeeAddr v rest
      (r2.1, r1.2 || r2.2)

/-! ## Symbol table (struct mach_config, bin_find_symbol, bin_find_symbol_name) -/

/-- An `nlist_64` entry as the lookups use it: the string-pool offset
`n_un.n_strx` and the address `n_value`. -/
structure NList where
  n_strx : Nat
  n_value : Nat
deriving DecidableEq

/-- Comparison by address, as a relation (used to state sortedness). -/
def nlistLe (a b : NList) : Prop := a.n_value ≤ b.n_value

instance : DecidableRel nlistLe := fun a b => Nat.decLe a.n_value b.n_value

instance : IsTotal NList nlistLe := ⟨fun a b => Nat.le_total a.n_value b.n_value⟩

instance : IsTrans NList nlistLe := ⟨fun _ _ _ h1 h2 => Nat.le_trans h1 h2⟩

/-- `nlist_cmp`: the qsort comparator over `n_value` (0 / -1 / 1). -/
def nlist_cmp (a b : NList) : Int :=
  if a.n_value = b.n_value then 0
  else if a.n_value < b.n_value then -1
  else 1

/-- The extracted `struct mach_config`: the sorted entry array, the string
pool (`strtab o` is the C string starting at byte offset `o` of the pool),
its size, and the image slide `image_offset` (kept `% 2 ^ 64`, so a
negative `intptr_t` slide is represented by its two's-complement value). -/
structure MachConfig where
  symbol_table : List NList
  strtab : Nat → String
  string_table_size : Nat
  image_offset : Nat

/-- Result of `bin_find_symbol`: NULL (no match), a pointer with an
optionally computed size, or an out-of-bounds read of the entry array
during the duplicate-address size scan (undefined behaviour in C). -/
inductive FindOutcome where
  | notFound
  | found (ptr : Nat) (size : Option Nat)
  | oobRead
deriving DecidableEq

/-- uint64 subtraction `a - b` (both operands below `2 ^ 64`). -/
def u64sub (a b : Nat) : Nat := (2 ^ 64 + a - b) % 2 ^ 64

/-- The duplicate-address skip loop of `bin_find_symbol`'s size
computation: starting after the matched entry, return the first entry
whose `n_value` differs.  `none` models the C loop running past the end of
the entry array (an out-of-bounds read). -/
def findNextEntry (v : Nat) : List NList → Option NList
  | [] => none
  | e :: rest => if e.n_value ≠ v then some e else findNextEntry v rest

/-- The linear scan of `bin_find_symbol` over (a suffix of) the entry
array.  Name comparison is `strcmp(symbol, string + 1)`: the pool string
starting one byte past the entry's `n_strx` (the Mach-O name-mangling
prefix byte is skipped). -/
def findSymbolAux (cfg : MachConfig) (symbol : String) (wantSize : Bool) :
    List NList → FindOutcome
  | [] => FindOutcome.notFound
  | e :: rest =>
    if symbol = cfg.strtab (e.n_strx + 1) then
      if wantSize then
        match findNextEntry e.n_value rest with
        | some nxt =>
          FindOutcome.found ((e.n_value + cfg.image_offset) % 2 ^ 64)
            (some (u64sub nxt.n_value e.n_value))
        | none => FindOutcome.oobRead
      else
        FindOutcome.found ((e.n_value + cfg.image_offset) % 2 ^ 64) none
    else findSymbolAux cfg symbol wantSize rest

/-- `bin_find_symbol(symbol, size, _)`; `wantSize` is whether the `size`
out-parameter is non-NULL. -/
def bin_find_symbol (cfg : MachConfig) (symbol : String) (wantSize : Bool) :
    FindOutcome :=
  findSymbolAux cfg symbol wantSize cfg.symbol_table

/-- The linear scan of `bin_find_symbol_name`: first entry whose slid
address equals the query pointer. -/
def findNameAux (cfg : MachConfig) (ptr : Nat) : List NList → Option String
  | [] => none
  | e :: rest =>
    if (e.n_value + cfg.image_offset) % 2 ^ 64 = ptr then
      some (cfg.strtab (e.n_strx + 1))
    else findNameAux cfg ptr rest

/-- `bin_find_symbol_name(symbol)`. -/
def bin_find_symbol_name (cfg : MachConfig) (ptr : Nat) : Option String :=
  findNameAux cfg ptr cfg.symbol_table

/-- The least `n_value` strictly greater than `a` among the entries of a
table (the specification's "nearest strictly greater address"). -/
def leastGreater (a : Nat) : List NList → Option Nat
  | [] => none
  | e :: rest =>
    if a < e.n_value then
      some (min e.n_value ((leastGreater a rest).getD e.n_value))
    else leastGreater a rest

/-- `bin_update_image(trampee, tramp, _)`: resolve the target symbol by
name (with a NULL size argument), then visit every loaded image.  Note the
C code performs no NULL check on the resolved address: an absent symbol
yields `trampee_addr == NULL` and the scan proceeds with target 0.  The
unused `orig_function` argument is omitted. -/
def bin_update_image (arch : ArchFn) (m : Mem) (cfg : MachConfig)
    (images : List Image) (trampee : String) (v : Nat) : Mem × Bool :=
  let ta : Nat :=
    match bin_find_symbol cfg trampee false with
    | FindOutcome.found p _ => p
    | _ => 0
  update_images arch m ta v images

/-! ## Symbol table extraction (extract_symbol_table) -/

/-- A load command of the Ruby image file: `LC_SYMTAB` carries the nlist
entries in file order, the string pool and its size; anything else is
skipped. -/
inductive LoadCmd where
  | symtabCmd (syms : List NList) (strtab : Nat → String) (strsize : Nat)
  | otherCmd

/-- `extract_symbol_table`: walk load commands, and at the first
`LC_SYMTAB`, produce the entry array sorted by libc `qsort` under
`nlist_cmp` (here `sortImpl`, an arbitrary implementation of the qsort
contract — see `IsQsortOf`), plus the copied string pool.  `none` models
the fatal `errx` when no `LC_SYMTAB` exists. -/
def extract_symbol_table (sortImpl : List NList → List NList) :
    List LoadCmd → Option (List NList × (Nat → String) × Nat)
  | [] => none
  | LoadCmd.symtabCmd syms st sz :: _ => some (sortImpl syms, st, sz)
  | LoadCmd.otherCmd :: rest => extract_symbol_table sortImpl rest

/-- The contract C guarantees for `qsort(..., &nlist_cmp)`: the output is
a permutation of the input, pairwise non-descending under the comparator.
The relative order of entries the comparator ties is NOT constrained. -/
def IsQsortOf (f : List NList → List NList) : Prop :=
  ∀ l : List NList,
    List.Perm (f l) l ∧ List.Pairwise (fun a b => nlist_cmp a b ≤ 0) (f l)

/-- A sort satisfying the qsort contract that reverses the relative order
of equal-address entries (insertion sort of the reversed input). -/
def badSort (l : List NList) : List NList :=
  List.insertionSort nlistLe l.reverse

/-! ## Executable page allocation (bin_allocate_page) -/

/-- `INT_MAX`. -/
def intMax : Nat := 2147483647

/-- Number of iterations of the allocation loop
`for (i = psz; i < INT_MAX - psz; i += psz)`: the hints are `k * psz` for
`1 ≤ k` with `k * psz < intMax - psz`. -/
def allocStrideCount (psz : Nat) : Nat := (intMax - psz - 1) / psz

/-- The allocation loop.  `osm` is the OS `mmap` oracle: for a hint
address it yields the mapped address or `none` for `MAP_FAILED`.  Returns
the result, the list of hint addresses requested (in order), and the final
memory (the successful page is memset to `0x90`, single-byte NOPs). -/
def allocFrom (osm : Nat → Option Nat) (m : Mem) (psz : Nat) :
    Nat → Nat → Option Nat × List Nat × Mem
  | _, 0 => (none, [], m)
  | i, n + 1 =>
    match osm i with
    | some a => (some a, [i], memsetBytes m a 0x90 psz)
    | none =>
      let r := allocFrom osm m psz (i + psz) n
      (r.1, i :: r.2.1, r.2.2)

/-- `bin_allocate_page()`: search upward from one page size above zero in
page-size strides.  (For `psz = 0` the C loop would spin on hint 0
forever; the model is only meaningful for `0 < psz`, which the page size
always satisfies.) -/
def bin_allocate_page (osm : Nat → Option Nat) (m : Mem) (psz : Nat) :
    Option Nat × List Nat × Mem :=
  allocFrom osm m psz psz (allocStrideCount psz)

/-! ## Concrete instances used by counterexamples and witnesses -/

/-- All-zero memory. -/
def memZero : Mem := fun _ => 0

/-- An encoder that never installs anything (used only where no `__text`
section is scanned, so its choice is irrelevant). -/
def arch0 : ArchFn := fun m _ _ _ => (m, false)

/-- String pool: offset 1 holds "foo". -/
def strtab1 : Nat → String := fun o => if o = 1 then "foo" else ""

/-- Config with one symbol "foo" at address 100. -/
def cfg1 : MachConfig := ⟨[⟨0, 100⟩], strtab1, 5, 0⟩

/-- One non-self image named libruby.dylib with a single 6-byte
`__symbol_stub1` section at address 2000. -/
def imgs1 : List Image :=
  [⟨false, some "libruby.dylib", [ImgLC.segment64 [⟨"__symbol_stub1", 2000, 6⟩]]⟩]

/-- String pool for `cfg2`. -/
def strtab2 : Nat → String :=
  fun o => if o = 1 then "f" else if o = 5 then "g" else
    if o = 9 then "g2" else if o = 13 then "h" else ""

/-- Sorted table with a duplicated address 32 ("g" and its alias "g2"). -/
def cfg2 : MachConfig :=
  ⟨[⟨0, 16⟩, ⟨4, 32⟩, ⟨8, 32⟩, ⟨12, 48⟩], strtab2, 20, 7⟩

/-- Table whose only entry is the matched one (nothing after it). -/
def cfg3 : MachConfig := ⟨[⟨0, 100⟩], fun o => if o = 1 then "f" else "", 3, 0⟩

/-- Two entries sharing address 100 under different names "a" and "b". -/
def cfg5 : MachConfig :=
  ⟨[⟨0, 100⟩, ⟨10, 100⟩],
    fun o => if o = 1 then "a" else if o = 11 then "b" else "", 20, 0⟩

/-- Two entries with distinct addresses, names "f" and "g". -/
def cfg5w : MachConfig :=
  ⟨[⟨0, 10⟩, ⟨4, 20⟩],
    fun o => if o = 1 then "f" else if o = 5 then "g" else "", 8, 0⟩

/-- A two-entry stub table at 1000: entry 0 (offset 100, slot 1106) holds
target 0x50, entry 1 (offset 200, slot 1212) holds target 0x60. -/
def memC4 : Mem := fun a =>
  if a = 1000 then 0xff else if a = 1001 then 0x25 else
  if a = 1002 then 100 else
  if a = 1006 then 0xff else if a = 1007 then 0x25 else
  if a = 1008 then 200 else
  if a = 1106 then 0x50 else
  if a = 1212 then 0x60 else 0

/-- A one-entry stub table at 1000 (offset 0, slot 1006, target 0x50). -/
def mem7 : Mem := fun a =>
  if a = 1000 then 0xff else if a = 1001 then 0x25 else
  if a = 1006 then 0x50 else 0

/-- An image whose file name ends in "bundle" without being a ".bundle"
object. -/
def img7 : Image := ⟨false, some "xbundle", []⟩

/-- An allow-listed image (the interpreter's shared library). -/
def img7w : Image := ⟨false, some "libruby.dylib", []⟩

/-- A stub-table section of one entry at address 1000. -/
def sect7 : SectionM := ⟨"__symbol_stub1", 1000, 6⟩

/-- An mmap oracle that succeeds at the very first hint. -/
def osmW : Nat → Option Nat := fun i => if i = 4096 then some 8192 else none

/-- An empty string pool. -/
def strtabEmpty : Nat → String := fun _ => ""

/-! # Theorems -/

/-! ## Symbol lookup: size estimation and the duplicate-address skip -/

theorem findNextEntry_eq_none (v : Nat) :
    ∀ l : List NList, (findNextEntry v l = none ↔ ∀ e ∈ l, e.n_value = v) := by
  intro l
  induction l with
  | nil => simp [findNextEntry]
  | cons e rest ih =>
    by_cases h : e.n_value = v
    · simp [findNextEntry, h, ih]
    · simp [findNextEntry, h]

theorem findNextEntry_mem (v : Nat) :
    ∀ (l : List NList) (x : NList), findNextEntry v l = some x →
      x ∈ l ∧ x.n_value ≠ v := by
  intro l
  induction l with
  | nil => intro x h; simp [findNextEntry] at h
  | cons e rest ih =>
    intro x h
    by_cases hv : e.n_value = v
    · rw [findNextEntry, if_neg (fun hn => hn hv)] at h
      obtain ⟨h1, h2⟩ := ih x h
      exact ⟨List.mem_cons_of_mem _ h1, h2⟩
    · rw [findNextEntry, if_pos hv] at h
      cases h
      exact ⟨List.mem_cons_self _ _, hv⟩

theorem leastGreater_mem (a : Nat) :
    ∀ (l : List NList) (g : Nat), leastGreater a l = some g →
      a < g ∧ ∃ x ∈ l, x.n_value = g := by
  intro l
  induction l with
  | nil => intro g h; simp [leastGreater] at h
  | cons e rest ih =>
    intro g h
    simp only [leastGreater] at h
    by_cases he : a < e.n_value
    · rw [if_pos he] at h
      cases hr : leastGreater a rest with
      | none =>
        rw [hr, Option.getD_none] at h
        simp only [min_self, Option.some.injEq] at h
        exact ⟨by omega, e, List.mem_cons_self _ _, by omega⟩
      | some m =>
        rw [hr, Option.getD_some] at h
        simp only [Option.some.injEq] at h
        obtain ⟨hm1, x, hx1, hx2⟩ := ih m hr
        by_cases hmin : e.n_value ≤ m
        · rw [min_eq_left hmin] at h
          exact ⟨by omega, e, List.mem_cons_self _ _, by omega⟩
        · rw [min_eq_right (by omega)] at h
          exact ⟨by omega, x, List.mem_cons_of_mem _ hx1, by omega⟩
    · rw [if_neg he] at h
      obtain ⟨hm1, x, hx1, hx2⟩ := ih g h
      exact ⟨hm1, x, List.mem_cons_of_mem _ hx1, hx2⟩

theorem findNext_leastGreater (a : Nat) :
    ∀ l : List NList, List.Pairwise nlistLe l → (∀ x ∈ l, a ≤ x.n_value) →
      ∀ nxt, findNextEntry a l = some nxt →
      leastGreater a l = some nxt.n_value := by
  intro l
  induction l with
  | nil => intro _ _ nxt h; simp [findNextEntry] at h
  | cons e rest ih =>
    intro hp hle nxt h
    rw [List.pairwise_cons] at hp
    by_cases hv : e.n_value = a
    · rw [findNextEntry, if_neg (fun hn => hn hv)] at h
      have hrec := ih hp.2 (fun x hx => hle x (List.mem_cons_of_mem _ hx)) nxt h
      simp only [leastGreater]
      rw [if_neg (by omega : ¬ a < e.n_value)]
      exact hrec
    · rw [findNextEntry, if_pos hv] at h
      cases h
      have hea : a < e.n_value := by
        have := hle e (List.mem_cons_self _ _)
        omega
      simp only [leastGreater]
      rw [if_pos hea]
      cases hr : leastGreater a rest with
      | none => rw [Option.getD_none, min_self]
      | some m =>
        rw [Option.getD_some]
        obtain ⟨hm1, x, hx1, hx2⟩ := leastGreater_mem a rest m hr
        have hxm : e.n_value ≤ m := by
          have := hp.1 x hx1
          unfold nlistLe at this
          omega
        rw [min_eq_left hxm]

theorem findSymbolAux_size_spec (cfg : MachConfig) (sym : String) :
    ∀ l : List NList, List.Pairwise nlistLe l →
      (∀ e ∈ l, e.n_value < 2 ^ 64) →
      ∀ ptr s, findSymbolAux cfg sym true l = FindOutcome.found ptr (some s) →
      ∃ en, en ∈ l ∧ ptr = (en.n_value + cfg.image_offset) % 2 ^ 64 ∧ 0 < s ∧
        leastGreater en.n_value l = some (en.n_value + s) := by
  intro l
  induction l with
  | nil => intro _ _ ptr s h; simp [findSymbolAux] at h
  | cons e rest ih =>
    intro hp hbd ptr s h
    rw [List.pairwise_cons] at hp
    by_cases hm : sym = cfg.strtab (e.n_strx + 1)
    · simp only [findSymbolAux, if_pos hm, if_true] at h
      cases hn : findNextEntry e.n_value rest with
      | none => rw [hn] at h; simp at h
      | some nxt =>
        rw [hn] at h
        simp only [FindOutcome.found.injEq, Option.some.injEq] at h
        obtain ⟨h1, h2⟩ := h
        obtain ⟨hnm, hne⟩ := findNextEntry_mem e.n_value rest nxt hn
        have hle : e.n_value ≤ nxt.n_value := hp.1 nxt hnm
        have hb1 : e.n_value < 2 ^ 64 := hbd e (List.mem_cons_self _ _)
        have hb2 : nxt.n_value < 2 ^ 64 := hbd nxt (List.mem_cons_of_mem _ hnm)
        have hsub : u64sub nxt.n_value e.n_value = nxt.n_value - e.n_value := by
          unfold u64sub
          omega
        refine ⟨e, List.mem_cons_self _ _, h1.symm, by omega, ?_⟩
        have hlg : leastGreater e.n_value (e :: rest) =
            leastGreater e.n_value rest := by
          simp only [leastGreater]
          rw [if_neg (by omega : ¬ e.n_value < e.n_value)]
        rw [hlg,
          findNext_leastGreater e.n_value rest hp.2
            (fun x hx => hp.1 x hx) nxt hn]
        congr 1
        omega
    · simp only [findSymbolAux, if_neg hm] at h
      obtain ⟨en, he1, he2, he3, he4⟩ :=
        ih hp.2 (fun x hx => hbd x (List.mem_cons_of_mem _ hx)) ptr s h
      refine ⟨en, List.mem_cons_of_mem _ he1, he2, he3, ?_⟩
      have hlee : nlistLe e en := hp.1 en he1
      unfold nlistLe at hlee
      simp only [leastGreater]
      rw [if_neg (by omega : ¬ en.n_value < e.n_value)]
      exact he4

/-- C2: when a sized name lookup matches, `bin_find_symbol` reports the
size as the delta from the matched entry's address to the nearest strictly
greater address in the sorted table, skipping every equal-address
duplicate alias (the matched address plus the reported size is exactly the
least strictly greater address present in the table). -/
theorem bin_find_symbol_size_correct (cfg : MachConfig) (sym : String)
    (ptr s : Nat) (hsort : List.Pairwise nlistLe cfg.symbol_table)
    (hbd : ∀ e ∈ cfg.symbol_table, e.n_value < 2 ^ 64)
    (h : bin_find_symbol cfg sym true = FindOutcome.found ptr (some s)) :
    ∃ en, en ∈ cfg.symbol_table ∧
      ptr = (en.n_value + cfg.image_offset) % 2 ^ 64 ∧ 0 < s ∧
      leastGreater en.n_value cfg.symbol_table = some (en.n_value + s) :=
  findSymbolAux_size_spec cfg sym cfg.symbol_table hsort hbd ptr s h

/-- Witness for C2 on a concrete sorted table with a duplicated address:
looking up "g" (address 32, aliased by "g2") reports size 16, the gap to
the next strictly greater address 48. -/
theorem bin_find_symbol_size_correct_witness :
    ∃ en, en ∈ cfg2.symbol_table ∧
      39 = (en.n_value + cfg2.image_offset) % 2 ^ 64 ∧ 0 < 16 ∧
      leastGreater en.n_value cfg2.symbol_table = some (en.n_value + 16) :=
  bin_find_symbol_size_correct cfg2 "g" 39 16 (by decide) (by decide)
    (by decide)

theorem findSymbolAux_oob_iff (cfg : MachConfig) (sym : String) :
    ∀ l : List NList, (findSymbolAux cfg sym true l = FindOutcome.oobRead ↔
      ∃ pre e post, l = pre ++ e :: post ∧
        (∀ p ∈ pre, sym ≠ cfg.strtab (p.n_strx + 1)) ∧
        sym = cfg.strtab (e.n_strx + 1) ∧
        ∀ x ∈ post, x.n_value = e.n_value) := by
  intro l
  induction l with
  | nil =>
    simp only [findSymbolAux]
    constructor
    · intro h; cases h
    · rintro ⟨pre, e, post, heq, -, -, -⟩
      cases pre <;> simp at heq
  | cons e rest ih =>
    by_cases hm : sym = cfg.strtab (e.n_strx + 1)
    · constructor
      · intro h
        simp only [findSymbolAux, if_pos hm, if_true] at h
        cases hn : findNextEntry e.n_value rest with
        | some nxt => rw [hn] at h; simp at h
        | none =>
          refine ⟨[], e, rest, rfl, by simp, hm, ?_⟩
          exact (findNextEntry_eq_none e.n_value rest).mp hn
      · rintro ⟨pre, e2, post, heq, hpre, hme, hpost⟩
        cases pre with
        | nil =>
          simp only [List.nil_append, List.cons.injEq] at heq
          obtain ⟨he1, he2⟩ := heq
          subst he1
          subst he2
          simp only [findSymbolAux, if_pos hm, if_true]
          rw [(findNextEntry_eq_none _ _).mpr hpost]
        | cons p pre2 =>
          simp only [List.cons_append, List.cons.injEq] at heq
          obtain ⟨hp1, -⟩ := heq
          subst hp1
          exact absurd hm (hpre e (List.mem_cons_self _ _))
    · constructor
      · intro h
        simp only [findSymbolAux, if_neg hm] at h
        obtain ⟨pre, e2, post, heq, hpre, hme, hpost⟩ := (ih).mp h
        refine ⟨e :: pre, e2, post, by simp [heq], ?_, hme, hpost⟩
        intro p hp
        rcases List.mem_cons.mp hp with h1 | h1
        · subst h1; exact hm
        · exact hpre p h1
      · rintro ⟨pre, e2, post, heq, hpre, hme, hpost⟩
        simp only [findSymbolAux, if_neg hm]
        apply (ih).mpr
        cases pre with
        | nil =>
          simp only [List.nil_append, List.cons.injEq] at heq
          obtain ⟨h1, -⟩ := heq
          rw [← h1] at hme
          exact absurd hme hm
        | cons p pre2 =>
          simp only [List.cons_append, List.cons.injEq] at heq
          obtain ⟨-, hp2⟩ := heq
          exact ⟨pre2, e2, post, hp2,
            fun q hq => hpre q (List.mem_cons_of_mem _ hq), hme, hpost⟩

/-- C3 (amended): the duplicate-address size scan runs past the end of the
entry array (modelled as the `oobRead` outcome) exactly when the first
name match is followed only by entries sharing its address — in
particular whenever the matched entry is the last one.  It stays within
`symbol_count` only when some later entry has a different address. -/
theorem find_size_scan_oob_iff (cfg : MachConfig) (sym : String) :
    bin_find_symbol cfg sym true = FindOutcome.oobRead ↔
      ∃ pre e post, cfg.symbol_table = pre ++ e :: post ∧
        (∀ p ∈ pre, sym ≠ cfg.strtab (p.n_strx + 1)) ∧
        sym = cfg.strtab (e.n_strx + 1) ∧
        ∀ x ∈ post, x.n_value = e.n_value :=
  findSymbolAux_oob_iff cfg sym cfg.symbol_table

/-- C3 counterexample: on a table whose matched entry is the last entry,
the sized lookup does not terminate in bounds — the size scan reads index
1 of a 1-entry array (the `oobRead` outcome), contradicting the claim that
all reads stay strictly below `symbol_count`. -/
theorem find_size_scan_oob_cex :
    bin_find_symbol cfg3 "f" false = FindOutcome.found 100 none ∧
    bin_find_symbol cfg3 "f" true = FindOutcome.oobRead := by decide

theorem findSymbolAux_found_mem (cfg : MachConfig) (sym : String) (ws : Bool) :
    ∀ (l : List NList) (ptr : Nat) (sz : Option Nat),
      findSymbolAux cfg sym ws l = FindOutcome.found ptr sz →
      ∃ en, en ∈ l ∧ sym = cfg.strtab (en.n_strx + 1) ∧
        ptr = (en.n_value + cfg.image_offset) % 2 ^ 64 := by
  intro l
  induction l with
  | nil => intro ptr sz h; simp [findSymbolAux] at h
  | cons e rest ih =>
    intro ptr sz h
    by_cases hm : sym = cfg.strtab (e.n_strx + 1)
    · refine ⟨e, List.mem_cons_self _ _, hm, ?_⟩
      simp only [findSymbolAux, if_pos hm] at h
      cases ws with
      | false =>
        simp only [Bool.false_eq_true, if_false, FindOutcome.found.injEq] at h
        exact h.1.symm
      | true =>
        simp only [if_true] at h
        cases hn : findNextEntry e.n_value rest with
        | none => rw [hn] at h; simp at h
        | some nxt =>
          rw [hn] at h
          simp only [FindOutcome.found.injEq] at h
          exact h.1.symm
    · simp only [findSymbolAux, if_neg hm] at h
      obtain ⟨en, h1, h2, h3⟩ := ih ptr sz h
      exact ⟨en, List.mem_cons_of_mem _ h1, h2, h3⟩

theorem findNameAux_roundtrip (cfg : MachConfig) (sym : String) (ws : Bool) :
    ∀ l : List NList,
      List.Pairwise (fun a b => a.n_value ≠ b.n_value) l →
      (∀ e ∈ l, e.n_value < 2 ^ 64) →
      ∀ (ptr : Nat) (sz : Option Nat),
        findSymbolAux cfg sym ws l = FindOutcome.found ptr sz →
        findNameAux cfg ptr l = some sym := by
  intro l
  induction l with
  | nil => intro _ _ ptr sz h; simp [findSymbolAux] at h
  | cons e rest ih =>
    intro hd hbd ptr sz h
    rw [List.pairwise_cons] at hd
    by_cases hm : sym = cfg.strtab (e.n_strx + 1)
    · have hptr : ptr = (e.n_value + cfg.image_offset) % 2 ^ 64 := by
        simp only [findSymbolAux, if_pos hm] at h
        cases ws with
        | false =>
          simp only [Bool.false_eq_true, if_false, FindOutcome.found.injEq] at h
          exact h.1.symm
        | true =>
          simp only [if_true] at h
          cases hn : findNextEntry e.n_value rest with
          | none => rw [hn] at h; simp at h
          | some nxt =>
            rw [hn] at h
            simp only [FindOutcome.found.injEq] at h
            exact h.1.symm
      simp only [findNameAux, hptr]
      rw [if_pos trivial, hm]
    · simp only [findSymbolAux, if_neg hm] at h
      obtain ⟨en, he1, -, he3⟩ := findSymbolAux_found_mem cfg sym ws rest ptr sz h
      have hne : e.n_value ≠ en.n_value := hd.1 en he1
      have hb1 : e.n_value < 2 ^ 64 := hbd e (List.mem_cons_self _ _)
      have hb2 : en.n_value < 2 ^ 64 := hbd en (List.mem_cons_of_mem _ he1)
      have hneq : (e.n_value + cfg.image_offset) % 2 ^ 64 ≠ ptr := by
        rw [he3]
        intro hc
        omega
      simp only [findNameAux, if_neg hneq]
      exact ih hd.2 (fun x hx => hbd x (List.mem_cons_of_mem _ hx)) ptr sz h

/-- C5 (amended): the name→address→name round trip holds provided no two
table entries share an address; with duplicate-address aliases present,
`bin_find_symbol_name` returns the first equal-addressed entry's name,
which need not be the queried one (see the counterexample). -/
theorem find_symbol_name_roundtrip (cfg : MachConfig) (sym : String)
    (ws : Bool) (ptr : Nat) (sz : Option Nat)
    (hdist : List.Pairwise (fun a b => a.n_value ≠ b.n_value) cfg.symbol_table)
    (hbd : ∀ e ∈ cfg.symbol_table, e.n_value < 2 ^ 64)
    (h : bin_find_symbol cfg sym ws = FindOutcome.found ptr sz) :
    bin_find_symbol_name cfg ptr = some sym :=
  findNameAux_roundtrip cfg sym ws cfg.symbol_table hdist hbd ptr sz h

/-- Witness for C5 (amended) on a duplicate-free table: resolving "g" to
its address 20 and looking the address back up returns "g". -/
theorem find_symbol_name_roundtrip_witness :
    bin_find_symbol_name cfg5w 20 = some "g" :=
  find_symbol_name_roundtrip cfg5w "g" false 20 none (by decide) (by decide)
    (by decide)

/-- C5 counterexample: with two aliases "a" and "b" sharing address 100,
resolving "b" yields pointer 100, but the address→name lookup returns the
first alias "a", so the round trip does not return the original name. -/
theorem find_symbol_name_roundtrip_cex :
    bin_find_symbol cfg5 "b" false = FindOutcome.found 100 none ∧
    bin_find_symbol_name cfg5 100 = some "a" ∧ ("a" : String) ≠ "b" := by
  decide

/-! ## Image scanning: self-image skip and the stub-table allow-list -/

theorem update_images_filter (arch : ArchFn) (ta tv : Nat) :
    ∀ (l : List Image) (m : Mem),
      update_images arch m ta tv l =
        update_images arch m ta tv (l.filter (fun i => !i.isSelf)) := by
  intro l
  induction l with
  | nil => intro m; rfl
  | cons img rest ih =>
    intro m
    by_cases hs : img.isSelf
    · have hf : List.filter (fun i => !i.isSelf) (img :: rest) =
          List.filter (fun i => !i.isSelf) rest := by
        simp [List.filter_cons, hs]
      have hl : update_images arch m ta tv (img :: rest) =
          update_images arch m ta tv rest := by
        simp only [update_images, if_pos hs]
      rw [hf, hl]
      exact ih m
    · have hf : List.filter (fun i => !i.isSelf) (img :: rest) =
          img :: List.filter (fun i => !i.isSelf) rest := by
        simp [List.filter_cons, hs]
      rw [hf]
      simp only [update_images, if_neg hs]
      rw [ih]

/-- C6: the instrumentation module's own image (`&_mh_bundle_header`) is
skipped by `bin_update_image`: the scan is identical to the scan of the
image list with every self image removed, so none of the self image's
sections is ever dispatched to either patcher. -/
theorem bin_update_image_skips_self (arch : ArchFn) (m : Mem)
    (cfg : MachConfig) (images : List Image) (trampee : String) (v : Nat) :
    bin_update_image arch m cfg images trampee v =
      bin_update_image arch m cfg (images.filter (fun i => !i.isSelf))
        trampee v := by
  unfold bin_update_image
  exact update_images_filter arch _ v images m

/-- C7 (amended): on a stub-table section, `update_mach_section` invokes
the stub patcher exactly when `should_update_stub_table` accepts the
image's file name, i.e. when the name's last six characters are "bundle"
(no dot required — looser than the spec's ".bundle") or its last thirteen
characters are "libruby.dylib"; otherwise the memory is returned
untouched with a failure result. -/
theorem stub_allowlist_amended (arch : ArchFn) (m : Mem) (img : Image)
    (sect : SectionM) (t v : Nat)
    (hname : strncmpEq sect.sectname "__symbol_stub" 13 = true) :
    (should_update_stub_table img = false →
      update_mach_section arch m img sect t v = (m, false)) ∧
    (should_update_stub_table img = true →
      update_mach_section arch m img sect t v =
        update_dyld_stub_table m sect.secAddr sect.size t v) ∧
    (should_update_stub_table img = true ↔
      ∃ s, img.fname = some s ∧
        (endsWithStr s "bundle" = true ∨
          endsWithStr s "libruby.dylib" = true)) := by
  refine ⟨?_, ?_, ?_⟩
  · intro hfilter
    unfold update_mach_section
    rw [hname, if_pos rfl, hfilter, if_neg (by simp)]
  · intro hfilter
    unfold update_mach_section
    rw [hname, if_pos rfl, hfilter, if_pos rfl]
  · cases himg : img.fname with
    | none => simp [should_update_stub_table, himg]
    | some s => simp [should_update_stub_table, himg]

/-- Witness for C7 (amended) on the interpreter's shared library. -/
theorem stub_allowlist_amended_witness :
    (should_update_stub_table img7w = false →
      update_mach_section arch0 memZero img7w sect7 1 2 = (memZero, false)) ∧
    (should_update_stub_table img7w = true →
      update_mach_section arch0 memZero img7w sect7 1 2 =
        update_dyld_stub_table memZero sect7.secAddr sect7.size 1 2) ∧
    (should_update_stub_table img7w = true ↔
      ∃ s, img7w.fname = some s ∧
        (endsWithStr s "bundle" = true ∨
          endsWithStr s "libruby.dylib" = true)) :=
  stub_allowlist_amended arch0 memZero img7w sect7 1 2 (by decide)

/-- C7 counterexample: an image named "xbundle" is not a ".bundle" object
(nor libruby.dylib), so it is outside the allow-list as the claim words
it, yet the code's filter accepts it and the stub patcher rewrites its
stub table (the pointer slot at 1006 changes from 0x50 to 0x99). -/
theorem stub_allowlist_cex :
    should_update_stub_table img7 = true ∧
    allowListSpec img7.fname = false ∧
    (update_mach_section arch0 mem7 img7 sect7 80 153).1 1006 = 153 ∧
    mem7 1006 = 80 := by decide

/-! ## The top-level patch operation with an absent target symbol (C1) -/

/-- C1: evidence that `bin_update_image` on an absent target symbol does
NOT return a distinct no-target result without scanning: the resolved
address is NULL, the scan proceeds anyway, and a malformed stub entry
(opcode bytes 0x00 0x00, decoded target NULL) compares equal to the NULL
target, so the patcher writes the trampoline address (65) into the slot at
2006 and the operation even reports success. -/
theorem bin_update_image_missing_symbol_writes :
    bin_find_symbol cfg1 "bar" false = FindOutcome.notFound ∧
    (bin_update_image arch0 memZero cfg1 imgs1 "bar" 65).2 = true ∧
    (bin_update_image arch0 memZero cfg1 imgs1 "bar" 65).1 2006 = 65 ∧
    memZero 2006 = 0 := by decide

/-! ## Symbol table extraction and qsort ordering (C9) -/

theorem nlist_cmp_le_zero (a b : NList) :
    nlist_cmp a b ≤ 0 ↔ a.n_value ≤ b.n_value := by
  unfold nlist_cmp
  rcases Nat.lt_trichotomy a.n_value b.n_value with h | h | h
  · rw [if_neg (by omega), if_pos h]
    constructor <;> intro <;> omega
  · rw [if_pos h]
    constructor <;> intro <;> omega
  · rw [if_neg (by omega), if_neg (by omega)]
    constructor <;> intro <;> omega

theorem badSort_isQsort : IsQsortOf badSort := by
  intro l
  constructor
  · exact (List.perm_insertionSort nlistLe l.reverse).trans l.reverse_perm
  · have hs : List.Sorted nlistLe (List.insertionSort nlistLe l.reverse) :=
      List.sorted_insertionSort nlistLe l.reverse
    exact hs.imp (fun h => (nlist_cmp_le_zero _ _).mpr h)

/-- C9 (amended): for every implementation of the qsort contract, the
extracted entry array is a permutation of the `LC_SYMTAB` entries sorted
in nondecreasing `n_value` order (and extraction itself is a function, so
it is deterministic for a fixed sort); the relative order of equal-address
entries is whatever qsort produces and is NOT guaranteed to be the
original one. -/
theorem extract_symbol_table_sorted (f : List NList → List NList)
    (hf : IsQsortOf f) :
    ∀ (cmds : List LoadCmd) (tbl : List NList) (st : Nat → String) (sz : Nat),
      extract_symbol_table f cmds = some (tbl, st, sz) →
      List.Pairwise nlistLe tbl ∧
        ∃ syms pre post, cmds = pre ++ LoadCmd.symtabCmd syms st sz :: post ∧
          List.Perm tbl syms := by
  intro cmds
  induction cmds with
  | nil => intro tbl st sz h; simp [extract_symbol_table] at h
  | cons c rest ih =>
    cases c with
    | symtabCmd syms st0 sz0 =>
      intro tbl st sz h
      simp only [extract_symbol_table, Option.some.injEq, Prod.mk.injEq] at h
      obtain ⟨h1, h2, h3⟩ := h
      subst h1
      subst h2
      subst h3
      constructor
      · exact ((hf syms).2).imp (fun h => (nlist_cmp_le_zero _ _).mp h)
      · exact ⟨syms, [], rest, by simp, (hf syms).1⟩
    | otherCmd =>
      intro tbl st sz h
      obtain ⟨hs, syms, pre, post, hc, hp⟩ :=
        ih tbl st sz (by simpa [extract_symbol_table] using h)
      exact ⟨hs, syms, LoadCmd.otherCmd :: pre, post, by simp [hc], hp⟩

/-- Witness for C9 (amended): extracting with the (contract-satisfying)
sort `badSort` from a one-command image yields a sorted permutation of the
symtab entries. -/
theorem extract_symbol_table_sorted_witness :
    List.Pairwise nlistLe [(⟨1, 5⟩ : NList), ⟨0, 5⟩] ∧
      ∃ syms pre post,
        [LoadCmd.symtabCmd [(⟨0, 5⟩ : NList), ⟨1, 5⟩] strtabEmpty 0] =
          pre ++ LoadCmd.symtabCmd syms strtabEmpty 0 :: post ∧
        List.Perm [(⟨1, 5⟩ : NList), ⟨0, 5⟩] syms :=
  extract_symbol_table_sorted badSort badSort_isQsort
    [LoadCmd.symtabCmd [⟨0, 5⟩, ⟨1, 5⟩] strtabEmpty 0]
    [⟨1, 5⟩, ⟨0, 5⟩] strtabEmpty 0 rfl

/-- C9 counterexample: `badSort` satisfies everything C guarantees for
`qsort(..., &nlist_cmp)`, yet extracting with it reverses the relative
order of the two equal-address entries — so the claim that equal-address
entries keep their original relative order does not hold for the code. -/
theorem extract_symbol_table_unstable_cex :
    IsQsortOf badSort ∧
    extract_symbol_table badSort
        [LoadCmd.symtabCmd [⟨0, 5⟩, ⟨1, 5⟩] strtabEmpty 0] =
      some ([⟨1, 5⟩, ⟨0, 5⟩], strtabEmpty, 0) ∧
    ([(⟨1, 5⟩ : NList), ⟨0, 5⟩] ≠ [⟨0, 5⟩, ⟨1, 5⟩]) :=
  ⟨badSort_isQsort, rfl, by decide⟩

/-! ## Executable page allocation (C8) -/

theorem allocFrom_spec (osm : Nat → Option Nat) (m : Mem) (psz : Nat) :
    ∀ n i,
      (∀ k, k < (allocFrom osm m psz i n).2.1.length →
        (allocFrom osm m psz i n).2.1.get? k = some (i + k * psz)) ∧
      ((allocFrom osm m psz i n).1 = none →
        (allocFrom osm m psz i n).2.1.length = n ∧
        (∀ k, k < n → osm (i + k * psz) = none) ∧
        (allocFrom osm m psz i n).2.2 = m) ∧
      (∀ a, (allocFrom osm m psz i n).1 = some a →
        ∃ j, j < n ∧ (allocFrom osm m psz i n).2.1.length = j + 1 ∧
          osm (i + j * psz) = some a ∧
          (∀ k, k < j → osm (i + k * psz) = none) ∧
          (allocFrom osm m psz i n).2.2 = memsetBytes m a 0x90 psz) := by
  intro n
  induction n with
  | zero =>
    intro i
    refine ⟨?_, ?_, ?_⟩
    · intro k hk; simp [allocFrom] at hk
    · intro _; exact ⟨rfl, fun k hk => absurd hk (by omega), rfl⟩
    · intro a ha; simp [allocFrom] at ha
  | succ n ih =>
    intro i
    obtain ⟨ih1, ih2, ih3⟩ := ih (i + psz)
    cases ho : osm i with
    | some a =>
      have hA : allocFrom osm m psz i (n + 1) =
          (some a, [i], memsetBytes m a 0x90 psz) := by
        simp [allocFrom, ho]
      refine ⟨?_, ?_, ?_⟩
      · intro k hk
        rw [hA] at hk ⊢
        simp only [List.length_singleton] at hk
        have hk0 : k = 0 := by omega
        subst hk0
        simp
      · intro hnone
        rw [hA] at hnone
        simp at hnone
      · intro b hb
        rw [hA] at hb
        simp only [Option.some.injEq] at hb
        subst hb
        refine ⟨0, by omega, by rw [hA]; rfl, by simpa using ho,
          fun k hk => absurd hk (by omega), by rw [hA]⟩
    | none =>
      have hA : allocFrom osm m psz i (n + 1) =
          ((allocFrom osm m psz (i + psz) n).1,
            i :: (allocFrom osm m psz (i + psz) n).2.1,
            (allocFrom osm m psz (i + psz) n).2.2) := by
        simp [allocFrom, ho]
      refine ⟨?_, ?_, ?_⟩
      · intro k hk
        rw [hA] at hk ⊢
        simp only [List.length_cons] at hk
        cases k with
        | zero => simp
        | succ k =>
          simp only [List.get?_cons_succ]
          rw [ih1 k (by omega)]
          congr 1
          rw [Nat.succ_mul]
          omega
      · intro hnone
        rw [hA] at hnone
        obtain ⟨l1, l2, l3⟩ := ih2 hnone
        refine ⟨by rw [hA]; simp [l1], ?_, by rw [hA]; exact l3⟩
        intro k hk
        cases k with
        | zero => simpa using ho
        | succ k =>
          have h2 : i + (k + 1) * psz = i + psz + k * psz := by
            rw [Nat.succ_mul]
            omega
          rw [h2]
          exact l2 k (by omega)
      · intro a ha
        rw [hA] at ha
        obtain ⟨j, j1, j2, j3, j4, j5⟩ := ih3 a ha
        refine ⟨j + 1, by omega, by rw [hA]; simp [j2], ?_, ?_,
          by rw [hA]; exact j5⟩
        · have h2 : i + (j + 1) * psz = i + psz + j * psz := by
            rw [Nat.succ_mul]
            omega
          rw [h2]
          exact j3
        · intro k hk
          cases k with
          | zero => simpa using ho
          | succ k =>
            have h2 : i + (k + 1) * psz = i + psz + k * psz := by
              rw [Nat.succ_mul]
              omega
            rw [h2]
            exact j4 k (by omega)

/-- C8: `bin_allocate_page` requests hint addresses `psz, 2*psz, 3*psz, …`
— starting one page above zero, increasing by exactly one page per
attempt, never zero and never repeated; the first hint the OS grants is
memset to 0x90 NOPs and its mapped address returned; `none` is returned
only when the OS refused every stride in the search range. -/
theorem bin_allocate_page_correct (osm : Nat → Option Nat) (m : Mem)
    (psz : Nat) (res : Option Nat) (tr : List Nat) (fm : Mem)
    (hpsz : 0 < psz) (h : bin_allocate_page osm m psz = (res, tr, fm)) :
    (∀ k, k < tr.length → tr.get? k = some (psz + k * psz)) ∧
    (∀ k, k < tr.length → tr.get? k ≠ some 0) ∧
    (∀ k1 k2, k1 < k2 → k2 < tr.length → tr.get? k1 ≠ tr.get? k2) ∧
    (res = none → tr.length = allocStrideCount psz ∧
      ∀ k, k < allocStrideCount psz → osm (psz + k * psz) = none) ∧
    (∀ a, res = some a →
      osm (psz + (tr.length - 1) * psz) = some a ∧
      (∀ k, k + 1 < tr.length → osm (psz + k * psz) = none) ∧
      fm = memsetBytes m a 0x90 psz ∧
      (∀ x, a ≤ x → x < a + psz → fm x = 0x90)) := by
  obtain ⟨s1, s2, s3⟩ := allocFrom_spec osm m psz (allocStrideCount psz) psz
  unfold bin_allocate_page at h
  rw [h] at s1 s2 s3
  dsimp only at s1 s2 s3
  refine ⟨s1, ?_, ?_, fun hn => ⟨(s2 hn).1, (s2 hn).2.1⟩, ?_⟩
  · intro k hk hc
    rw [s1 k hk] at hc
    simp only [Option.some.injEq] at hc
    omega
  · intro k1 k2 hlt hk2 hc
    rw [s1 k1 (by omega), s1 k2 hk2] at hc
    simp only [Option.some.injEq] at hc
    have hmul : k1 * psz < k2 * psz := mul_lt_mul_of_pos_right hlt hpsz
    omega
  · intro a ha
    obtain ⟨j, j1, j2, j3, j4, j5⟩ := s3 a ha
    have hj : tr.length - 1 = j := by omega
    refine ⟨by rw [hj]; exact j3, ?_, j5, ?_⟩
    · intro k hk
      exact j4 k (by omega)
    · intro x hx1 hx2
      rw [j5]
      unfold memsetBytes
      rw [if_pos ⟨hx1, hx2⟩]

/-- Witness for C8: an OS that grants the very first hint (4096),
returning page address 8192. -/
theorem bin_allocate_page_correct_witness :
    (∀ k, k < [4096].length → [4096].get? k = some (4096 + k * 4096)) ∧
    (∀ k, k < [4096].length → [4096].get? k ≠ some 0) ∧
    (∀ k1 k2, k1 < k2 → k2 < [4096].length →
      [4096].get? k1 ≠ [4096].get? k2) ∧
    (some 8192 = none → [4096].length = allocStrideCount 4096 ∧
      ∀ k, k < allocStrideCount 4096 → osmW (4096 + k * 4096) = none) ∧
    (∀ a, some 8192 = some a →
      osmW (4096 + ([4096].length - 1) * 4096) = some a ∧
      (∀ k, k + 1 < [4096].length → osmW (4096 + k * 4096) = none) ∧
      memsetBytes memZero 8192 0x90 4096 = memsetBytes memZero a 0x90 4096 ∧
      (∀ x, a ≤ x → x < a + 4096 →
        memsetBytes memZero 8192 0x90 4096 x = 0x90)) :=
  bin_allocate_page_correct osmW memZero 4096 (some 8192) [4096]
    (memsetBytes memZero 8192 0x90 4096) (by decide) rfl

/-! ## Stub-table patching (C4, C10) -/

theorem readPtr_eq_of_agree {m1 m2 : Mem} {a : Nat}
    (h : ∀ x, a ≤ x → x < a + 8 → m1 x = m2 x) :
    readPtr m1 a = readPtr m2 a := by
  unfold readPtr
  rw [h a (by omega) (by omega), h (a + 1) (by omega) (by omega),
    h (a + 2) (by omega) (by omega), h (a + 3) (by omega) (by omega),
    h (a + 4) (by omega) (by omega), h (a + 5) (by omega) (by omega),
    h (a + 6) (by omega) (by omega), h (a + 7) (by omega) (by omega)]

theorem update_stub_go_spec (m0 : Mem) (table len t v : Nat) (ht : t ≠ 0)
    (hdisj : ∀ j, j < stubN len → wfAt m0 table j →
      slotOf m0 table j + 8 ≤ table ∨
        table + 6 * stubN len ≤ slotOf m0 table j)
    (hsl : ∀ j1 j2, j1 < stubN len → j2 < stubN len → j1 ≠ j2 →
      wfAt m0 table j1 → wfAt m0 table j2 →
      slotOf m0 table j1 + 8 ≤ slotOf m0 table j2 ∨
        slotOf m0 table j2 + 8 ≤ slotOf m0 table j1) :
    ∀ n, ∀ k, ∀ m : Mem, k + n = stubN len →
      (∀ x, (inBlock table (6 * stubN len) x ∨
          ∃ j, k ≤ j ∧ j < stubN len ∧ wfAt m0 table j ∧
            inBlock (slotOf m0 table j) 8 x) → m x = m0 x) →
      ((update_stub_go t v m (table + 6 * k) n).2 = true ↔
        ∃ j, k ≤ j ∧ j < stubN len ∧ matchAt m0 table j t) ∧
      (∀ x, (∀ j, k ≤ j → j < stubN len → matchAt m0 table j t →
          ¬ inBlock (slotOf m0 table j) 8 x) →
        (update_stub_go t v m (table + 6 * k) n).1 x = m x) ∧
      (∀ j, k ≤ j → j < stubN len → matchAt m0 table j t →
        ∀ x, inBlock (slotOf m0 table j) 8 x →
          (update_stub_go t v m (table + 6 * k) n).1 x =
            byteAt v (x - slotOf m0 table j)) := by
  intro n
  induction n with
  | zero =>
    intro k m hk hm
    refine ⟨?_, fun x _ => rfl, ?_⟩
    · constructor
      · intro h
        simp [update_stub_go] at h
      · rintro ⟨j, hj1, hj2, -⟩
        exact absurd hj2 (by omega)
    · intro j hj1 hj2 hmj x hx
      exact absurd hj2 (by omega)
  | succ n ih =>
    intro k m hk hm
    have hkN : k < stubN len := by omega
    have hb0 : m (table + 6 * k) = m0 (table + 6 * k) :=
      hm _ (Or.inl ⟨by omega, by omega⟩)
    have hb1 : m (table + 6 * k + 1) = m0 (table + 6 * k + 1) :=
      hm _ (Or.inl ⟨by omega, by omega⟩)
    have hc0 : m (table + 6 * k + 2) = m0 (table + 6 * k + 2) :=
      hm _ (Or.inl ⟨by omega, by omega⟩)
    have hc1 : m (table + 6 * k + 2 + 1) = m0 (table + 6 * k + 2 + 1) :=
      hm _ (Or.inl ⟨by omega, by omega⟩)
    have hc2 : m (table + 6 * k + 2 + 2) = m0 (table + 6 * k + 2 + 2) :=
      hm _ (Or.inl ⟨by omega, by omega⟩)
    have hc3 : m (table + 6 * k + 2 + 3) = m0 (table + 6 * k + 2 + 3) :=
      hm _ (Or.inl ⟨by omega, by omega⟩)
    have hslot : slotAddr m (table + 6 * k) = slotOf m0 table k := by
      unfold slotOf slotAddr readU32
      rw [hc0, hc1, hc2, hc3]
    have hwf : (m (table + 6 * k) % 256 = 0xff ∧
        m (table + 6 * k + 1) % 256 = 0x25) ↔ wfAt m0 table k := by
      unfold wfAt wfStub
      rw [hb0, hb1]
    have hget : get_dyld_stub_target m (table + 6 * k) =
        if wfAt m0 table k then readPtr m0 (slotOf m0 table k) else 0 := by
      unfold get_dyld_stub_target
      by_cases hw : wfAt m0 table k
      · rw [if_pos (hwf.mpr hw), if_pos hw, hslot]
        exact readPtr_eq_of_agree (fun x hx1 hx2 =>
          hm x (Or.inr ⟨k, le_refl k, hkN, hw, hx1, hx2⟩))
      · rw [if_neg (fun hc => hw (hwf.mp hc)), if_neg hw]
    have he6 : table + 6 * k + 6 = table + 6 * (k + 1) := by omega
    have hstep : update_stub_go t v m (table + 6 * k) (n + 1) =
        if get_dyld_stub_target m (table + 6 * k) = t then
          ((update_stub_go t v (set_dyld_stub_target m (table + 6 * k) v)
              (table + 6 * (k + 1)) n).1, true)
        else
          ((update_stub_go t v m (table + 6 * (k + 1)) n).1,
            (update_stub_go t v m (table + 6 * (k + 1)) n).2) := by
      simp only [update_stub_go, he6]
    by_cases hmk : matchAt m0 table k t
    · have hcond : get_dyld_stub_target m (table + 6 * k) = t := by
        rw [hget, if_pos hmk.1]
        exact hmk.2
      have hm1 : ∀ x, (inBlock table (6 * stubN len) x ∨
          ∃ j, k + 1 ≤ j ∧ j < stubN len ∧ wfAt m0 table j ∧
            inBlock (slotOf m0 table j) 8 x) →
          set_dyld_stub_target m (table + 6 * k) v x = m0 x := by
        intro x hx
        unfold set_dyld_stub_target writePtr
        rw [hslot]
        rw [if_neg ?hnot]
        case hnot =>
          rcases hx with hb | ⟨j, hj1, hj2, hjw, hjs⟩
          · rcases hdisj k hkN hmk.1 with hd | hd
            · intro hcon
              omega
            · intro hcon
              omega
          · rcases hsl j k hj2 hkN (by omega) hjw hmk.1 with hd | hd
            · intro hcon
              omega
            · intro hcon
              omega
        apply hm
        rcases hx with hb | ⟨j, hj1, hj2, hjw, hjs⟩
        · exact Or.inl hb
        · exact Or.inr ⟨j, by omega, hj2, hjw, hjs⟩
      obtain ⟨ih1, ih2, ih3⟩ :=
        ih (k + 1) (set_dyld_stub_target m (table + 6 * k) v) (by omega) hm1
      rw [hstep, if_pos hcond]
      dsimp only
      refine ⟨?_, ?_, ?_⟩
      · constructor
        · intro _
          exact ⟨k, le_refl k, hkN, hmk⟩
        · intro _
          rfl
      · intro x hx
        rw [ih2 x (fun j hj1 hj2 hjm => hx j (by omega) hj2 hjm)]
        unfold set_dyld_stub_target writePtr
        rw [hslot, if_neg (hx k (le_refl k) hkN hmk)]
      · intro j hj1 hj2 hjm x hx
        rcases Nat.eq_or_lt_of_le hj1 with he | hlt
        · subst he
          rw [ih2 x ?fr2]
          case fr2 =>
            intro j2 hj21 hj22 hj2m
            rcases hsl j2 k hj22 hkN (by omega) hj2m.1 hmk.1 with hd | hd
            · intro hcon
              obtain ⟨hx1, hx2⟩ := hx
              obtain ⟨hcon1, hcon2⟩ := hcon
              omega
            · intro hcon
              obtain ⟨hx1, hx2⟩ := hx
              obtain ⟨hcon1, hcon2⟩ := hcon
              omega
          unfold set_dyld_stub_target writePtr
          rw [hslot, if_pos hx]
        · exact ih3 j (by omega) hj2 hjm x hx
    · have hcond : ¬ get_dyld_stub_target m (table + 6 * k) = t := by
        rw [hget]
        by_cases hw : wfAt m0 table k
        · rw [if_pos hw]
          intro hc
          exact hmk ⟨hw, hc⟩
        · rw [if_neg hw]
          intro hc
          exact ht hc.symm
      have hm1b : ∀ x, (inBlock table (6 * stubN len) x ∨
          ∃ j, k + 1 ≤ j ∧ j < stubN len ∧ wfAt m0 table j ∧
            inBlock (slotOf m0 table j) 8 x) → m x = m0 x := by
        intro x hx
        apply hm
        rcases hx with hb | ⟨j, hj1, hj2, hjw, hjs⟩
        · exact Or.inl hb
        · exact Or.inr ⟨j, by omega, hj2, hjw, hjs⟩
      obtain ⟨ih1, ih2, ih3⟩ := ih (k + 1) m (by omega) hm1b
      rw [hstep, if_neg hcond]
      dsimp only
      refine ⟨?_, ?_, ?_⟩
      · rw [ih1]
        constructor
        · rintro ⟨j, hj1, hj2, hjm⟩
          exact ⟨j, by omega, hj2, hjm⟩
        · rintro ⟨j, hj1, hj2, hjm⟩
          have hjk : j ≠ k := fun hc => hmk (hc ▸ hjm)
          exact ⟨j, by omega, hj2, hjm⟩
      · intro x hx
        exact ih2 x (fun j hj1 hj2 hjm => hx j (by omega) hj2 hjm)
      · intro j hj1 hj2 hjm x hx
        have hjk : j ≠ k := fun hc => hmk (hc ▸ hjm)
        exact ih3 j (by omega) hj2 hjm x hx

/-- C4: for a stub table whose pointer slots lie outside the table and do
not overlap each other (the spec's contract: the displacement points to a
pointer slot, not code) and a resolved (non-NULL) target, the patcher
reports success iff some entry's decoded target equals the resolved
target; exactly the matching entries' slots are overwritten with the
trampoline address; non-matching well-formed entries' slots and the
records of entries with wrong opcode bytes are left completely
untouched. -/
theorem update_dyld_stub_table_correct (m0 : Mem) (table len t v : Nat)
    (m1 : Mem) (ok : Bool) (ht : t ≠ 0)
    (hdisj : ∀ j, j < stubN len → wfAt m0 table j →
      slotOf m0 table j + 8 ≤ table ∨
        table + 6 * stubN len ≤ slotOf m0 table j)
    (hsl : ∀ j1, j1 < stubN len → ∀ j2, j2 < stubN len → j1 ≠ j2 →
      wfAt m0 table j1 → wfAt m0 table j2 →
      slotOf m0 table j1 + 8 ≤ slotOf m0 table j2 ∨
        slotOf m0 table j2 + 8 ≤ slotOf m0 table j1)
    (h : update_dyld_stub_table m0 table len t v = (m1, ok)) :
    (ok = true ↔ ∃ j, j < stubN len ∧ matchAt m0 table j t) ∧
    (∀ j, j < stubN len → matchAt m0 table j t →
      ∀ x, inBlock (slotOf m0 table j) 8 x →
        m1 x = byteAt v (x - slotOf m0 table j)) ∧
    (∀ j, j < stubN len → wfAt m0 table j → ¬ matchAt m0 table j t →
      ∀ x, inBlock (slotOf m0 table j) 8 x → m1 x = m0 x) ∧
    (∀ j, j < stubN len → ¬ wfAt m0 table j →
      ∀ x, inBlock (table + 6 * j) 6 x → m1 x = m0 x) := by
  obtain ⟨s1, s2, s3⟩ := update_stub_go_spec m0 table len t v ht hdisj
    (fun j1 j2 h1 h2 hne hw1 hw2 => hsl j1 h1 j2 h2 hne hw1 hw2)
    (stubN len) 0 m0 (by omega) (fun x _ => rfl)
  rw [show table + 6 * 0 = table from by omega] at s1 s2 s3
  unfold update_dyld_stub_table at h
  rw [h] at s1 s2 s3
  dsimp only at s1 s2 s3
  refine ⟨?_, ?_, ?_, ?_⟩
  · rw [s1]
    constructor
    · rintro ⟨j, -, hj2, hjm⟩
      exact ⟨j, hj2, hjm⟩
    · rintro ⟨j, hj2, hjm⟩
      exact ⟨j, by omega, hj2, hjm⟩
  · intro j hj2 hjm x hx
    exact s3 j (by omega) hj2 hjm x hx
  · intro j hj2 hjw hjm x hx
    have hfr : ∀ j2, 0 ≤ j2 → j2 < stubN len → matchAt m0 table j2 t →
        ¬ inBlock (slotOf m0 table j2) 8 x := by
      intro j2 hj21 hj22 hj2m
      have hne : j2 ≠ j := fun hc => hjm (hc ▸ hj2m)
      rcases hsl j2 hj22 j hj2 hne hj2m.1 hjw with hd | hd
      · intro hcon
        obtain ⟨a1, a2⟩ := hx
        obtain ⟨b1, b2⟩ := hcon
        omega
      · intro hcon
        obtain ⟨a1, a2⟩ := hx
        obtain ⟨b1, b2⟩ := hcon
        omega
    exact s2 x hfr
  · intro j hj2 hjw x hx
    have hfr : ∀ j2, 0 ≤ j2 → j2 < stubN len → matchAt m0 table j2 t →
        ¬ inBlock (slotOf m0 table j2) 8 x := by
      intro j2 hj21 hj22 hj2m
      rcases hdisj j2 hj22 hj2m.1 with hd | hd
      · intro hcon
        obtain ⟨a1, a2⟩ := hx
        obtain ⟨b1, b2⟩ := hcon
        omega
      · intro hcon
        obtain ⟨a1, a2⟩ := hx
        obtain ⟨b1, b2⟩ := hcon
        omega
    exact s2 x hfr

/-- Witness for C4 on a concrete two-entry stub table: entry 0 targets
0x50 (matched, slot 1106 rewritten with 119), entry 1 targets 0x60
(untouched). -/
theorem update_dyld_stub_table_correct_witness :
    ((update_dyld_stub_table memC4 1000 12 80 119).2 = true ↔
      ∃ j, j < stubN 12 ∧ matchAt memC4 1000 j 80) ∧
    (∀ j, j < stubN 12 → matchAt memC4 1000 j 80 →
      ∀ x, inBlock (slotOf memC4 1000 j) 8 x →
        (update_dyld_stub_table memC4 1000 12 80 119).1 x =
          byteAt 119 (x - slotOf memC4 1000 j)) ∧
    (∀ j, j < stubN 12 → wfAt memC4 1000 j → ¬ matchAt memC4 1000 j 80 →
      ∀ x, inBlock (slotOf memC4 1000 j) 8 x →
        (update_dyld_stub_table memC4 1000 12 80 119).1 x = memC4 x) ∧
    (∀ j, j < stubN 12 → ¬ wfAt memC4 1000 j →
      ∀ x, inBlock (1000 + 6 * j) 6 x →
        (update_dyld_stub_table memC4 1000 12 80 119).1 x = memC4 x) :=
  update_dyld_stub_table_correct memC4 1000 12 80 119
    ((update_dyld_stub_table memC4 1000 12 80 119).1)
    ((update_dyld_stub_table memC4 1000 12 80 119).2)
    (by decide) (by decide)
    (by
      intro j1 h1 j2 h2 hne hw1 hw2
      have hN : stubN 12 = 2 := rfl
      have hc : j1 = 0 ∧ j2 = 1 ∨ j1 = 1 ∧ j2 = 0 := by omega
      rcases hc with ⟨e1, e2⟩ | ⟨e1, e2⟩ <;> subst e1 <;> subst e2 <;> decide)
    rfl

/-- C10: under the same slot/table disjointness contract, the only bytes a
stub-table pass writes are the 8-byte pointer slots of matching entries;
every byte outside those slots — in particular every byte of every
6-byte stub entry record, matching or not — is unchanged. -/
theorem update_dyld_stub_table_frame (m0 : Mem) (table len t v : Nat)
    (m1 : Mem) (ok : Bool) (ht : t ≠ 0)
    (hdisj : ∀ j, j < stubN len → wfAt m0 table j →
      slotOf m0 table j + 8 ≤ table ∨
        table + 6 * stubN len ≤ slotOf m0 table j)
    (hsl : ∀ j1, j1 < stubN len → ∀ j2, j2 < stubN len → j1 ≠ j2 →
      wfAt m0 table j1 → wfAt m0 table j2 →
      slotOf m0 table j1 + 8 ≤ slotOf m0 table j2 ∨
        slotOf m0 table j2 + 8 ≤ slotOf m0 table j1)
    (h : update_dyld_stub_table m0 table len t v = (m1, ok)) :
    (∀ x, (∀ j, j < stubN len → matchAt m0 table j t →
        ¬ inBlock (slotOf m0 table j) 8 x) → m1 x = m0 x) ∧
    (∀ j, j < stubN len → ∀ x, inBlock (table + 6 * j) 6 x →
      m1 x = m0 x) := by
  obtain ⟨s1, s2, s3⟩ := update_stub_go_spec m0 table len t v ht hdisj
    (fun j1 j2 h1 h2 hne hw1 hw2 => hsl j1 h1 j2 h2 hne hw1 hw2)
    (stubN len) 0 m0 (by omega) (fun x _ => rfl)
  rw [show table + 6 * 0 = table from by omega] at s1 s2 s3
  unfold update_dyld_stub_table at h
  rw [h] at s1 s2 s3
  dsimp only at s1 s2 s3
  refine ⟨?_, ?_⟩
  · intro x hx
    exact s2 x (fun j hj1 hj2 hjm => hx j hj2 hjm)
  · intro j hj2 x hx
    apply s2 x
    intro j2 hj21 hj22 hj2m
    rcases hdisj j2 hj22 hj2m.1 with hd | hd
    · intro hcon
      obtain ⟨a1, a2⟩ := hx
      obtain ⟨b1, b2⟩ := hcon
      omega
    · intro hcon
      obtain ⟨a1, a2⟩ := hx
      obtain ⟨b1, b2⟩ := hcon
      omega

/-- Witness for C10 on the same concrete two-entry stub table. -/
theorem update_dyld_stub_table_frame_witness :
    (∀ x, (∀ j, j < stubN 12 → matchAt memC4 1000 j 80 →
        ¬ inBlock (slotOf memC4 1000 j) 8 x) →
      (update_dyld_stub_table memC4 1000 12 80 119).1 x = memC4 x) ∧
    (∀ j, j < stubN 12 → ∀ x, inBlock (1000 + 6 * j) 6 x →
      (update_dyld_stub_table memC4 1000 12 80 119).1 x = memC4 x) :=
  update_dyld_stub_table_frame memC4 1000 12 80 119
    ((update_dyld_stub_table memC4 1000 12 80 119).1)
    ((update_dyld_stub_table memC4 1000 12 80 119).2)
    (by decide) (by decide)
    (by
      intro j1 h1 j2 h2 hne hw1 hw2
      have hN : stubN 12 = 2 := rfl
      have hc : j1 = 0 ∧ j2 = 1 ∨ j1 = 1 ∧ j2 = 0 := by omega
      rcases hc with ⟨e1, e2⟩ | ⟨e1, e2⟩ <;> subst e1 <;> subst e2 <;> decide)
    rfl
